import Mathlib

/-!
Shallow embedding of the riege-xterm terminal core (src/core/ui.rs and
src/core/repl_new.rs).  Strings are modelled as `List Char`; the cursor of the
input editor is a byte index into the UTF-8 encoding of the buffer, exactly as
in the Rust source (`String::insert` / `String::remove` take byte indices).
Fallible operations (the byte-index insert/remove, which panic in Rust when the
index is not a character boundary) return `Option`.
-/

namespace RX

/-- The ASCII escape character `\x1b` recognised by `strip_ansi_codes`. -/
def escChar : Char := '\x1b'

/-- Rust's `char::is_ascii_alphabetic`. -/
def is_ascii_alphabetic (c : Char) : Bool :=
  ('A' ≤ c ∧ c ≤ 'Z') ∨ ('a' ≤ c ∧ c ≤ 'z')

/-- Worker for `strip_ansi_codes`, a direct transcription of the source's
iterator loop.  The `Bool` flag is `true` while the inner
`while let Some(c) = chars.next() { if c.is_ascii_alphabetic() { break } }`
loop is consuming an escape sequence's body, `false` in the outer loop.
In the outer loop, on `\x1b` the source calls `chars.next()` once (consuming
one character unconditionally); only when that character is `[` does it enter
the skipping loop. -/
def stripAux : Bool → List Char → List Char
  | _, [] => []
  | true, c :: rest =>
      if is_ascii_alphabetic c then stripAux false rest else stripAux true rest
  | false, c :: rest =>
      if c = escChar then
        match rest with
        | [] => []
        | d :: rest2 => if d = '[' then stripAux true rest2 else stripAux false rest2
      else c :: stripAux false rest

/-- `strip_ansi_codes` from src/core/ui.rs. -/
def strip_ansi_codes (s : List Char) : List Char :=
  stripAux false s

/-- The `ratatui` color values used by `parse_message_type`. -/
inductive Color where
  | Rgb (r g b : Nat)
  | Red | Green | Cyan | Yellow | Magenta
  | LightBlue | LightGreen | LightYellow | White
deriving DecidableEq, Repr

/-- Rust's `str::trim_start_matches(pat)`: repeatedly removes `pat` from the
front while it is a prefix.  Since every removal of the (non-empty) pattern
strictly shortens the string, `s.length` iterations always suffice; the fuel
argument makes the recursion structural. -/
def trimStartMatchesFuel : Nat → List Char → List Char → List Char
  | 0, _, s => s
  | fuel + 1, p, s =>
      if p ≠ [] ∧ p.isPrefixOf s then trimStartMatchesFuel fuel p (s.drop p.length) else s

/-- Rust's `str::trim_start_matches`. -/
def trim_start_matches (p s : List Char) : List Char :=
  trimStartMatchesFuel s.length p s

/-- The seven internal banner tags `[RUST1]`–`[RUST7]` with their colors,
in source order. -/
def rustTags : List (List Char × Color) :=
  [("[RUST1]".toList, .Rgb 204 85 0),
   ("[RUST2]".toList, .Rgb 255 102 0),
   ("[RUST3]".toList, .Rgb 255 136 0),
   ("[RUST4]".toList, .Rgb 204 102 0),
   ("[RUST5]".toList, .Rgb 170 85 0),
   ("[RUST6]".toList, .Rgb 136 68 0),
   ("[RUST7]".toList, .Rgb 119 51 0)]

/-- `parse_message_type` from src/core/ui.rs: an ordered prefix-rule table,
first match wins.  Only the `[RUSTi]` branches strip their tag from the
returned display text; every other branch returns the message unchanged. -/
def parse_message_type (msg : List Char) : List Char × Color :=
  if ("[RUST1]".toList).isPrefixOf msg then
    (trim_start_matches ("[RUST1]".toList) msg, .Rgb 204 85 0)
  else if ("[RUST2]".toList).isPrefixOf msg then
    (trim_start_matches ("[RUST2]".toList) msg, .Rgb 255 102 0)
  else if ("[RUST3]".toList).isPrefixOf msg then
    (trim_start_matches ("[RUST3]".toList) msg, .Rgb 255 136 0)
  else if ("[RUST4]".toList).isPrefixOf msg then
    (trim_start_matches ("[RUST4]".toList) msg, .Rgb 204 102 0)
  else if ("[RUST5]".toList).isPrefixOf msg then
    (trim_start_matches ("[RUST5]".toList) msg, .Rgb 170 85 0)
  else if ("[RUST6]".toList).isPrefixOf msg then
    (trim_start_matches ("[RUST6]".toList) msg, .Rgb 136 68 0)
  else if ("[RUST7]".toList).isPrefixOf msg then
    (trim_start_matches ("[RUST7]".toList) msg, .Rgb 119 51 0)
  else if ("[ERROR]".toList).isPrefixOf msg ∨ ("✗".toList).isPrefixOf msg then
    (msg, .Red)
  else if ("[✓]".toList).isPrefixOf msg ∨ ("[SUCCESS]".toList).isPrefixOf msg then
    (msg, .Green)
  else if ("[INFO]".toList).isPrefixOf msg ∨ ("ℹ".toList).isPrefixOf msg then
    (msg, .Cyan)
  else if ("[WARNING]".toList).isPrefixOf msg ∨ ("⚠".toList).isPrefixOf msg then
    (msg, .Yellow)
  else if ("[DEBUG]".toList).isPrefixOf msg then
    (msg, .Magenta)
  else if ("Username:".toList).isPrefixOf msg ∨ ("UUID:".toList).isPrefixOf msg then
    (msg, .LightBlue)
  else if ("Connecting".toList).isPrefixOf msg ∨ ("Starting".toList).isPrefixOf msg then
    (msg, .LightGreen)
  else if ("Waiting".toList).isPrefixOf msg ∨ ("Loading".toList).isPrefixOf msg then
    (msg, .LightYellow)
  else
    (msg, .White)

/-- The classifier of the spec: strip escape sequences, then match the prefix
table (the draw loop runs `strip_ansi_codes` then `parse_message_type` on each
visible line). -/
def classify (msg : List Char) : List Char × Color :=
  parse_message_type (strip_ansi_codes msg)

/-- Strip one trailing carriage return, as Rust's `str::lines` does to each
`\n`-terminated chunk (so that `\r\n` terminators are removed whole). -/
def stripTrailingCR (l : List Char) : List Char :=
  if l.getLast? = some '\r' then l.dropLast else l

/-- Worker for `rust_lines`.  `acc` holds the current line's characters in
reverse.  At a `\n` the accumulated line (with a trailing `\r` stripped) is
emitted; at the end of input a non-empty accumulated line is emitted as the
final (unterminated) line, while an empty one is not — so a trailing `\n`
produces no extra empty line, matching Rust. -/
def rustLinesAux : List Char → List Char → List (List Char)
  | acc, [] => if acc = [] then [] else [acc.reverse]
  | acc, c :: rest =>
      if c = '\n' then stripTrailingCR acc.reverse :: rustLinesAux [] rest
      else rustLinesAux (c :: acc) rest

/-- Rust's `str::lines()` (the iterator used by `MessageLogger::log`),
collected into a list: split at `\n`, strip a `\r` preceding each `\n`, and do
not emit a final empty segment for a string that ends in `\n`. -/
def rust_lines (s : List Char) : List (List Char) :=
  rustLinesAux [] s

/-- The capacity of the message buffer, `MAX_MESSAGES` in the source. -/
def MAX_MESSAGES : Nat := 1000

/-- One iteration of the push loop in `MessageLogger::log`:
`if msgs.len() >= C { msgs.pop_front(); } msgs.push_back(line)`.
The log is a list with the oldest line first (the `VecDeque`'s front). -/
def push_line (C : Nat) (log : List (List Char)) (line : List Char) : List (List Char) :=
  if C ≤ log.length then log.tail ++ [line] else log ++ [line]

/-- `MessageLogger::log` from src/core/ui.rs, parameterised by the capacity
`C` (the source fixes `C = MAX_MESSAGES = 1000`): push every line of
`message.lines()`, then, when the message is empty or exactly `"\n"`, push one
extra empty line. -/
def log_message (C : Nat) (log : List (List Char)) (message : List Char) : List (List Char) :=
  let log1 := (rust_lines message).foldl (push_line C) log
  if message = [] ∨ message = ['\n'] then push_line C log1 [] else log1

/-- The full list of lines that one `log_message` call pushes, in order. -/
def logged_lines (message : List Char) : List (List Char) :=
  rust_lines message ++ (if message = [] ∨ message = ['\n'] then [[]] else [])

/-- Rust's `char::is_whitespace`: the Unicode `White_Space` property. -/
def rust_is_whitespace (c : Char) : Bool :=
  c = ' ' ∨ c = '\t' ∨ c = '\n' ∨ c = '\x0b' ∨ c = '\x0c' ∨ c = '\r' ∨
  c = '\u0085' ∨ c = ' ' ∨ c = ' ' ∨
  (0x2000 ≤ c.toNat ∧ c.toNat ≤ 0x200A) ∨
  c = ' ' ∨ c = ' ' ∨ c = ' ' ∨ c = ' ' ∨ c = '　'

/-- Rust's `str::trim()`: remove leading and trailing whitespace. -/
def rust_trim (s : List Char) : List Char :=
  ((s.dropWhile rust_is_whitespace).reverse.dropWhile rust_is_whitespace).reverse

/-- The UTF-8 byte length of a buffer — Rust's `String::len()`. -/
def byteLen (s : List Char) : Nat :=
  (s.map Char.utf8Size).sum

/-- Translate a byte index into a character index: `some k` when the byte
index falls on the boundary after the first `k` characters, `none` when it is
inside a character's encoding or past the end (the situations in which Rust's
`String::insert` / `String::remove` panic). -/
def charPosOfByte : List Char → Nat → Option Nat
  | _, 0 => some 0
  | [], _ => none
  | c :: rest, i =>
      if c.utf8Size ≤ i then (charPosOfByte rest (i - c.utf8Size)).map (· + 1)
      else none

/-- Rust's `String::insert(idx, ch)` with its panic made explicit: `none` when
`idx` is not a character boundary of the buffer. -/
def string_insert (s : List Char) (idx : Nat) (ch : Char) : Option (List Char) :=
  (charPosOfByte s idx).map (fun k => s.take k ++ ch :: s.drop k)

/-- Rust's `String::remove(idx)` with its panic made explicit: `none` when
`idx` is not a character boundary or is the end of the buffer. -/
def string_remove (s : List Char) (idx : Nat) : Option (List Char) :=
  (charPosOfByte s idx).bind
    (fun k => if k < s.length then some (s.take k ++ s.drop (k + 1)) else none)

/-- The mutable state of `TerminalUI` that the key handlers touch:
the input buffer, the cursor (a byte index, as in the source), the scroll
offset, the history and the history index. -/
structure InputState where
  input : List Char
  cursor_position : Nat
  scroll_offset : Nat
  history : List (List Char)
  history_index : Nat
deriving DecidableEq, Repr

/-- The fresh state built by `TerminalUI::new()`. -/
def InputState.new : InputState :=
  { input := [], cursor_position := 0, scroll_offset := 0, history := [], history_index := 0 }

/-- The `KeyCode::Enter` arm of `handle_key`, up to the `on_command` call:
returns the new state together with the submitted command (the old buffer,
handed to `on_command`). -/
def handle_enter (st : InputState) : InputState × List Char :=
  let cmd := st.input
  let history1 := if rust_trim cmd ≠ [] then st.history ++ [cmd] else st.history
  ({ input := [], cursor_position := 0, scroll_offset := 0,
     history := history1, history_index := history1.length }, cmd)

/-- The `KeyCode::Up` arm of `handle_key`. -/
def handle_up (st : InputState) : InputState :=
  if 0 < st.history_index then
    let entry := st.history.getD (st.history_index - 1) []
    { st with history_index := st.history_index - 1,
              input := entry, cursor_position := byteLen entry }
  else st

/-- The `KeyCode::Down` arm of `handle_key`. -/
def handle_down (st : InputState) : InputState :=
  if st.history_index < st.history.length then
    let i := st.history_index + 1
    let entry := if i < st.history.length then st.history.getD i [] else []
    { st with history_index := i, input := entry, cursor_position := byteLen entry }
  else st

/-- The `KeyCode::Tab` arm of `handle_key`, taking the list returned by the
completion callback: a non-empty list replaces the buffer with its first
element and puts the cursor at the buffer's (byte) end. -/
def handle_tab (st : InputState) (suggestions : List (List Char)) : InputState :=
  match suggestions with
  | [] => st
  | s :: _ => { st with input := s, cursor_position := byteLen s }

/-- The `KeyCode::Char(c)` arm of `handle_key`:
`self.input.insert(self.cursor_position, c); self.cursor_position += 1`.
`none` models the panic of `String::insert` on a non-boundary byte index. -/
def handle_char (st : InputState) (c : Char) : Option InputState :=
  (string_insert st.input st.cursor_position c).map
    (fun b => { st with input := b, cursor_position := st.cursor_position + 1 })

/-- The `KeyCode::Backspace` arm of `handle_key`. -/
def handle_backspace (st : InputState) : Option InputState :=
  if 0 < st.cursor_position then
    (string_remove st.input (st.cursor_position - 1)).map
      (fun b => { st with input := b, cursor_position := st.cursor_position - 1 })
  else some st

/-- The result type of the `on_command` callback, Rust's
`Result<bool, String>`. -/
inductive CmdOutcome where
  | okTrue
  | okFalse
  | err (e : List Char)
deriving DecidableEq, Repr

/-- The loop-control value of `handle_key`. -/
inductive KeyAction where
  | Continue
  | Exit
deriving DecidableEq, Repr

/-- How the Enter arm of `handle_key` turns the callback's result into a loop
action: `match on_command(cmd).await { Ok(true) => Exit, _ => Continue }`. -/
def enterKeyAction : CmdOutcome → KeyAction
  | .okTrue => .Exit
  | .okFalse => .Continue
  | .err _ => .Continue

/-- What `run_loop` does with a key action: on `Exit` it returns `Ok(())`
(`some (.ok ())` — the loop's overall result), on `Continue` it keeps looping
(`none` — no result yet). -/
def runLoopStep : KeyAction → Option (Except (List Char) Unit)
  | .Exit => some (.ok ())
  | .Continue => none

/-- The `on_command` closure of `Terminal::run` in src/core/repl_new.rs:
checks the shutdown flag first and returns `Ok(true)` without touching the
callback; otherwise invokes the host callback (when bound) on the trimmed
input and returns `Ok(false)`.  The second component is the argument the host
callback is invoked with (`none` = not invoked). -/
def replOnCommand (shutdown : Bool) (hasCallback : Bool) (input : List Char) :
    CmdOutcome × Option (List Char) :=
  if shutdown then (.okTrue, none)
  else if hasCallback then (.okFalse, some (rust_trim input))
  else (.okFalse, none)

theorem stripAux_false_cons_ne (c : Char) (rest : List Char) (hc : c ≠ escChar) :
    stripAux false (c :: rest) = c :: stripAux false rest := by
  rw [stripAux.eq_def]; simp [hc]

theorem stripAux_esc_bracket (r : List Char) :
    stripAux false (escChar :: '[' :: r) = stripAux true r := rfl

theorem stripAux_esc_other (c : Char) (r : List Char) (hc : c ≠ '[') :
    stripAux false (escChar :: c :: r) = stripAux false r := by
  rw [stripAux.eq_def]; simp [hc]

theorem stripAux_esc_nil : stripAux false [escChar] = [] := rfl

theorem stripAux_true_alpha (c : Char) (r : List Char) (h : is_ascii_alphabetic c = true) :
    stripAux true (c :: r) = stripAux false r := by
  rw [stripAux.eq_def]; simp [h]

theorem stripAux_true_nonalpha (c : Char) (r : List Char) (h : is_ascii_alphabetic c = false) :
    stripAux true (c :: r) = stripAux true r := by
  rw [stripAux.eq_def]; simp [h]

theorem strip_ansi_codes_id_of_no_esc (s : List Char) (h : escChar ∉ s) :
    strip_ansi_codes s = s := by
  unfold strip_ansi_codes
  induction s with
  | nil => rfl
  | cons c rest ih =>
    have hc : c ≠ escChar := fun e => h (by simp [e])
    have hrest : escChar ∉ rest := fun m => h (List.mem_cons_of_mem _ m)
    rw [stripAux_false_cons_ne c rest hc, ih hrest]

theorem stripAux_false_append (p s : List Char) (h : escChar ∉ p) :
    stripAux false (p ++ s) = p ++ stripAux false s := by
  induction p with
  | nil => rfl
  | cons c p' ih =>
    have hc : c ≠ escChar := fun e => h (by simp [e])
    have hp' : escChar ∉ p' := fun m => h (List.mem_cons_of_mem _ m)
    rw [List.cons_append, stripAux_false_cons_ne _ _ hc, ih hp', List.cons_append]

theorem stripAux_true_skip (body : List Char) (t : Char) (rest : List Char)
    (hb : ∀ c ∈ body, is_ascii_alphabetic c = false) (ht : is_ascii_alphabetic t = true) :
    stripAux true (body ++ t :: rest) = stripAux false rest := by
  induction body with
  | nil => simpa using stripAux_true_alpha t rest ht
  | cons c b ih =>
    rw [List.cons_append, stripAux_true_nonalpha _ _ (hb c (by simp))]
    exact ih (fun x hx => hb x (by simp [hx]))

/-- C4 (counterexample): the claim says a character that is not part of an
escape-character-plus-`[` sequence always survives stripping; but on the input
`ESC X` the source's unconditional `chars.next()` swallows the `X`, so the
output is empty even though `X` belongs to no such sequence. -/
theorem C4_counterexample :
    strip_ansi_codes ['\x1b', 'X'] = []
    ∧ 'X' ∈ ['\x1b', 'X']
    ∧ 'X' ∉ strip_ansi_codes ['\x1b', 'X'] := by
  decide

/-- C4 (amended): `strip_ansi_codes` passes escape-free text through
unchanged, removes every subsequence `ESC [ body terminator` (with a
non-alphabetic body and an ASCII-alphabetic terminator) entirely, and — beyond
what the claim allowed — after an `ESC` not followed by `[` it also removes
the `ESC` together with the single character after it, and it removes a
trailing lone `ESC`. -/
theorem C4_strip_ansi_amended :
    (∀ s : List Char, escChar ∉ s → strip_ansi_codes s = s)
    ∧ (∀ (p body rest : List Char) (t : Char), escChar ∉ p →
        (∀ c ∈ body, is_ascii_alphabetic c = false) → is_ascii_alphabetic t = true →
        strip_ansi_codes (p ++ escChar :: '[' :: (body ++ t :: rest)) =
          p ++ strip_ansi_codes rest)
    ∧ (∀ (p rest : List Char) (c : Char), escChar ∉ p → c ≠ '[' →
        strip_ansi_codes (p ++ escChar :: c :: rest) = p ++ strip_ansi_codes rest)
    ∧ (∀ p : List Char, escChar ∉ p → strip_ansi_codes (p ++ [escChar]) = p) := by
  refine ⟨strip_ansi_codes_id_of_no_esc, ?_, ?_, ?_⟩
  · intro p body rest t hp hb ht
    unfold strip_ansi_codes
    rw [stripAux_false_append _ _ hp, stripAux_esc_bracket, stripAux_true_skip body t rest hb ht]
  · intro p rest c hp hc
    unfold strip_ansi_codes
    rw [stripAux_false_append _ _ hp, stripAux_esc_other c rest hc]
  · intro p hp
    unfold strip_ansi_codes
    rw [stripAux_false_append _ _ hp, stripAux_esc_nil, List.append_nil]

/-- C4 (witness): the amended theorem applied to the concrete input
`A ESC [ 3 1 m B`, which strips to `AB`. -/
theorem C4_witness :
    strip_ansi_codes ('A' :: escChar :: '[' :: '3' :: '1' :: 'm' :: ['B']) = ['A', 'B'] := by
  have h := C4_strip_ansi_amended.2.1 ['A'] ['3', '1'] ['B'] 'm'
    (by decide) (by decide) (by decide)
  have hB : strip_ansi_codes ['B'] = ['B'] := by decide
  simpa [hB] using h

theorem parse_message_type_display_eq (msg : List Char)
    (h : ∀ t ∈ rustTags, ¬ (t.1.isPrefixOf msg = true)) :
    (parse_message_type msg).1 = msg := by
  unfold parse_message_type
  rw [if_neg (h ("[RUST1]".toList, .Rgb 204 85 0) (by decide)),
      if_neg (h ("[RUST2]".toList, .Rgb 255 102 0) (by decide)),
      if_neg (h ("[RUST3]".toList, .Rgb 255 136 0) (by decide)),
      if_neg (h ("[RUST4]".toList, .Rgb 204 102 0) (by decide)),
      if_neg (h ("[RUST5]".toList, .Rgb 170 85 0) (by decide)),
      if_neg (h ("[RUST6]".toList, .Rgb 136 68 0) (by decide)),
      if_neg (h ("[RUST7]".toList, .Rgb 119 51 0) (by decide))]
  repeat' split
  all_goals rfl

/-- C3 (counterexample): classification is not idempotent on banner-tagged
lines: `[RUST1]hello` (which contains no escape character) classifies to the
first banner color with display text `hello`, but reclassifying `hello` gives
the default White category. -/
theorem C3_counterexample :
    escChar ∉ "[RUST1]hello".toList
    ∧ classify "[RUST1]hello".toList = ("hello".toList, Color.Rgb 204 85 0)
    ∧ classify (classify "[RUST1]hello".toList).1 = ("hello".toList, Color.White)
    ∧ Color.White ≠ Color.Rgb 204 85 0 := by
  decide

/-- C3 (amended): for every line that contains no escape character and does
not start with one of the internal banner tags `[RUST1]`–`[RUST7]`, `classify`
is idempotent: reapplying it to the display text it returned yields the same
display text and the same color category. -/
theorem C3_classify_idempotent_amended (msg : List Char) (h1 : escChar ∉ msg)
    (h2 : ∀ t ∈ rustTags, ¬ (t.1.isPrefixOf msg = true)) :
    classify (classify msg).1 = classify msg := by
  unfold classify
  rw [strip_ansi_codes_id_of_no_esc msg h1, parse_message_type_display_eq msg h2,
      strip_ansi_codes_id_of_no_esc msg h1]

/-- C3 (witness): the amended idempotence applied to the concrete line
`[ERROR] boom`. -/
theorem C3_witness :
    classify (classify "[ERROR] boom".toList).1 = classify "[ERROR] boom".toList :=
  C3_classify_idempotent_amended ("[ERROR] boom".toList) (by decide) (by decide)

theorem push_line_length_le (C : Nat) (hC : 1 ≤ C) (log : List (List Char)) (l : List Char)
    (h : log.length ≤ C) : (push_line C log l).length ≤ C := by
  unfold push_line
  split
  · rw [List.length_append, List.length_tail, List.length_singleton]; omega
  · rw [List.length_append, List.length_singleton]; omega

theorem foldl_push_line_length_le (C : Nat) (hC : 1 ≤ C) (lines : List (List Char)) :
    ∀ log : List (List Char), log.length ≤ C → (lines.foldl (push_line C) log).length ≤ C := by
  induction lines with
  | nil => intro log h; simpa using h
  | cons l rest ih =>
    intro log h
    rw [List.foldl_cons]
    exact ih _ (push_line_length_le C hC log l h)

theorem log_message_length_le (C : Nat) (hC : 1 ≤ C) (log : List (List Char))
    (msg : List Char) (h : log.length ≤ C) : (log_message C log msg).length ≤ C := by
  unfold log_message
  have h1 := foldl_push_line_length_le C hC (rust_lines msg) log h
  split
  · exact push_line_length_le C hC _ [] h1
  · exact h1

theorem foldl_log_message_length_le (C : Nat) (hC : 1 ≤ C) (msgs : List (List Char)) :
    ∀ log : List (List Char), log.length ≤ C → (msgs.foldl (log_message C) log).length ≤ C := by
  induction msgs with
  | nil => intro log h; simpa using h
  | cons m rest ih =>
    intro log h
    rw [List.foldl_cons]
    exact ih _ (log_message_length_le C hC log m h)

theorem foldl_push_line_eq_drop (C : Nat) (hC : 1 ≤ C) (ls : List (List Char)) :
    ls.foldl (push_line C) [] = ls.drop (ls.length - C) := by
  induction ls using List.reverseRecOn with
  | nil => simp
  | append_singleton ls a ih =>
    rw [List.foldl_append, List.foldl_cons, List.foldl_nil, ih]
    simp only [List.length_append, List.length_singleton]
    by_cases h : C ≤ ls.length
    · have hlen : (ls.drop (ls.length - C)).length = C := by
        rw [List.length_drop]; omega
      rw [push_line, if_pos (le_of_eq hlen.symm), List.tail_drop,
          List.drop_append_eq_append_drop]
      have h1 : ls.length + 1 - C = ls.length - C + 1 := by omega
      have h2 : ls.length - C + 1 - ls.length = 0 := by omega
      rw [h1, h2, List.drop_zero]
    · have h0 : ls.length - C = 0 := by omega
      have h0' : ls.length + 1 - C = 0 := by omega
      rw [h0, h0', List.drop_zero, List.drop_zero, push_line, if_neg (by omega)]

/-- C1: the message log is a bounded FIFO.  For every capacity `C ≥ 1`:
(1) any sequence of `log` calls starting from the empty buffer leaves at most
`C` lines (and hence at most `C` at every intermediate point, since every
prefix is itself such a sequence); (2) a sequence of `N` single-line pushes
leaves exactly the last `min N C` lines, so (3) for `N > C` the oldest
remaining line is the `(N−C+1)`-th pushed line; and (4) with capacity 3,
logging `a`, `b`, `c`, `d` leaves exactly `[b, c, d]`. -/
theorem C1_message_log_bounded_fifo (C : Nat) (hC : 1 ≤ C) :
    (∀ msgs : List (List Char), (msgs.foldl (log_message C) []).length ≤ C)
    ∧ (∀ ls : List (List Char), ls.foldl (push_line C) [] = ls.drop (ls.length - C))
    ∧ (∀ ls : List (List Char), C < ls.length →
        (ls.foldl (push_line C) []).head? = ls[ls.length - C]?)
    ∧ ["a".toList, "b".toList, "c".toList, "d".toList].foldl (log_message 3) []
        = ["b".toList, "c".toList, "d".toList] := by
  refine ⟨fun msgs => foldl_log_message_length_le C hC msgs [] (by simp),
          foldl_push_line_eq_drop C hC, ?_, by decide⟩
  intro ls _
  rw [foldl_push_line_eq_drop C hC ls, List.head?_drop]

/-- C1 (witness): the bounded-FIFO theorem applied at capacity `C = 3`,
specialised to its concrete eviction scenario. -/
theorem C1_witness :
    ["a".toList, "b".toList, "c".toList, "d".toList].foldl (log_message 3) []
      = ["b".toList, "c".toList, "d".toList] :=
  (C1_message_log_bounded_fifo 3 (by decide)).2.2.2

theorem log_message_eq_foldl_logged_lines (C : Nat) (log : List (List Char))
    (msg : List Char) :
    log_message C log msg = (logged_lines msg).foldl (push_line C) log := by
  unfold log_message logged_lines
  split
  · rw [List.foldl_append, List.foldl_cons, List.foldl_nil]
  · rw [List.append_nil]

theorem rustLinesAux_no_newline (s : List Char) :
    ∀ acc : List Char, '\n' ∉ acc → ∀ l ∈ rustLinesAux acc s, '\n' ∉ l := by
  induction s with
  | nil =>
    intro acc hacc l hl
    rw [rustLinesAux] at hl
    split at hl
    · simp at hl
    · simp at hl
      subst hl
      simpa [List.mem_reverse] using hacc
  | cons c rest ih =>
    intro acc hacc l hl
    rw [rustLinesAux] at hl
    split at hl
    · rcases List.mem_cons.mp hl with h | h
      · subst h
        unfold stripTrailingCR
        split
        · intro m
          exact hacc (List.mem_reverse.mp ((List.dropLast_sublist _).mem m))
        · simpa [List.mem_reverse] using hacc
      · exact ih [] (by simp) l h
    · rename_i hc
      exact ih (c :: acc) (by simp [hacc, Ne.symm hc]) l hl

theorem rust_lines_no_newline (s : List Char) : ∀ l ∈ rust_lines s, '\n' ∉ l :=
  rustLinesAux_no_newline s [] (by simp)

/-- C2 (counterexample): the claim says a string containing line breaks pushes
exactly one LogLine per line segment; but the input consisting of a single
newline has exactly one segment (the empty line), while `MessageLogger::log`
pushes that segment in its loop and then pushes a second empty line in its
`message == "\n"` special case. -/
theorem C2_counterexample :
    '\n' ∈ ['\n']
    ∧ rust_lines ['\n'] = [[]]
    ∧ logged_lines ['\n'] = [[], []]
    ∧ logged_lines ['\n'] ≠ rust_lines ['\n']
    ∧ log_message 2 [] ['\n'] = [[], []] := by
  decide

/-- C2 (amended): a `log` call pushes exactly the list `logged_lines message`
(each pushed through the capacity-checked push): one line per `lines()`
segment, each free of `\n`; an explicitly empty message pushes one empty
line; and — the correction — the message consisting of exactly one newline
pushes two empty lines, not one.  For every other message containing a line
break, the pushed lines are exactly the segments. -/
theorem C2_log_splits_lines_amended (C : Nat) (log : List (List Char)) (msg : List Char) :
    (log_message C log msg = (logged_lines msg).foldl (push_line C) log)
    ∧ (∀ l ∈ logged_lines msg, '\n' ∉ l)
    ∧ ('\n' ∈ msg → msg ≠ ['\n'] → logged_lines msg = rust_lines msg)
    ∧ (msg = [] → logged_lines msg = [[]])
    ∧ (msg = ['\n'] → logged_lines msg = [[], []]) := by
  refine ⟨log_message_eq_foldl_logged_lines C log msg, ?_, ?_, ?_, ?_⟩
  · intro l hl
    unfold logged_lines at hl
    rcases List.mem_append.mp hl with h | h
    · exact rust_lines_no_newline msg l h
    · split at h <;> simp_all
  · intro hmem hne
    have hnil : msg ≠ [] := by rintro rfl; simp at hmem
    unfold logged_lines
    rw [if_neg (by simp [hnil, hne]), List.append_nil]
  · rintro rfl; rfl
  · rintro rfl; rfl

/-- C2 (witness): the amended theorem applied to the concrete two-line
message `a\nb`: its pushed lines are exactly its two segments. -/
theorem C2_witness :
    logged_lines ['a', '\n', 'b'] = rust_lines ['a', '\n', 'b'] :=
  (C2_log_splits_lines_amended 1000 [] ['a', '\n', 'b']).2.2.1 (by decide) (by decide)

/-- C5 (counterexample): the claim says a blank Enter leaves `history_index`
unchanged for every starting value in `[0, history length]`; but from the
state with history `[a]` and `history_index = 0`, submitting a blank buffer
runs `self.history_index = self.history.len()` and so sets it to 1. -/
theorem C5_counterexample :
    rust_trim ((⟨[' '], 1, 0, [['a']], 0⟩ : InputState).input) = []
    ∧ (handle_enter ⟨[' '], 1, 0, [['a']], 0⟩).1.history = [['a']]
    ∧ (handle_enter ⟨[' '], 1, 0, [['a']], 0⟩).1.history_index = 1
    ∧ (⟨[' '], 1, 0, [['a']], 0⟩ : InputState).history_index = 0 := by
  decide

/-- C5 (amended): handling Enter on a blank (whitespace-only or empty) buffer
appends no history entry, and resets `history_index` to the history length
(rather than leaving it unchanged); the submitted text is the raw buffer. -/
theorem C5_blank_enter_amended (st : InputState) (h : rust_trim st.input = []) :
    (handle_enter st).1.history = st.history
    ∧ (handle_enter st).1.history_index = st.history.length
    ∧ (handle_enter st).2 = st.input := by
  unfold handle_enter
  simp [h]

/-- C5 (witness): the amended theorem applied to a concrete whitespace-only
buffer with one history entry. -/
theorem C5_witness :
    (handle_enter ⟨"  ".toList, 2, 0, [['x']], 1⟩).1.history = [['x']]
    ∧ (handle_enter ⟨"  ".toList, 2, 0, [['x']], 1⟩).1.history_index = 1 := by
  have h := C5_blank_enter_amended ⟨"  ".toList, 2, 0, [['x']], 1⟩ (by decide)
  exact ⟨h.1, h.2.1⟩

/-- C6: when the shutdown flag reads true at the start of submission handling,
the repl closure returns `Ok(true)` without invoking the host callback, the
Enter handler maps that to `Exit`, and the loop returns success. -/
theorem C6_shutdown_exits_ok :
    ∀ (hasCallback : Bool) (input : List Char),
      replOnCommand true hasCallback input = (.okTrue, none)
      ∧ enterKeyAction (replOnCommand true hasCallback input).1 = .Exit
      ∧ runLoopStep (enterKeyAction (replOnCommand true hasCallback input).1)
          = some (.ok ()) := by
  intro hc inp
  refine ⟨?_, ?_, ?_⟩ <;> simp [replOnCommand, enterKeyAction, runLoopStep]

/-- C7: an error result and a `false` result from the command callback both
make the loop continue, and the error is discarded (the next loop state
carries no error); only the explicit `Ok(true)` result exits the loop. -/
theorem C7_callback_error_continues :
    (∀ e : List Char, enterKeyAction (.err e) = .Continue
      ∧ runLoopStep (enterKeyAction (.err e)) = none)
    ∧ enterKeyAction .okFalse = .Continue
    ∧ (∀ o : CmdOutcome, enterKeyAction o = .Exit ↔ o = .okTrue) := by
  refine ⟨fun e => ⟨rfl, rfl⟩, rfl, ?_⟩
  intro o
  cases o <;> simp [enterKeyAction]

/-- C7 (witness): a concrete failing callback result makes the loop
continue. -/
theorem C7_witness : enterKeyAction (.err "boom".toList) = .Continue :=
  (C7_callback_error_continues.1 "boom".toList).1

/-- C8: Tab with no candidates leaves the whole state unchanged; with
candidates the buffer becomes exactly the first candidate and the cursor
moves to its (byte) end, the rest of the state untouched; in particular with
candidates `[foo, foobar]` the buffer becomes `foo` and the cursor 3. -/
theorem C8_tab_completion (st : InputState) :
    handle_tab st [] = st
    ∧ (∀ (s : List Char) (rest : List (List Char)),
        (handle_tab st (s :: rest)).input = s
        ∧ (handle_tab st (s :: rest)).cursor_position = byteLen s
        ∧ (handle_tab st (s :: rest)).history = st.history
        ∧ (handle_tab st (s :: rest)).history_index = st.history_index)
    ∧ (handle_tab st ["foo".toList, "foobar".toList]).input = "foo".toList
    ∧ (handle_tab st ["foo".toList, "foobar".toList]).cursor_position = 3 := by
  refine ⟨rfl, fun s rest => ⟨rfl, rfl, rfl, rfl⟩, rfl, ?_⟩
  show byteLen "foo".toList = 3
  decide

/-- C9: Up with `history_index > 0` decrements it and loads that entry with
the cursor at the buffer's end; Up at 0 is a no-op; Down below the history
length increments, loading the entry or clearing at the boundary, cursor at
buffer end; Down at the length is a no-op.  From history `[first, second]`
and index 2, Up, Up gives buffer `first` at index 0, then Down gives
`second`. -/
theorem C9_history_navigation :
    (∀ st : InputState, 0 < st.history_index →
      (handle_up st).history_index = st.history_index - 1
      ∧ (handle_up st).input = st.history.getD (st.history_index - 1) []
      ∧ (handle_up st).cursor_position = byteLen ((handle_up st).input))
    ∧ (∀ st : InputState, st.history_index = 0 → handle_up st = st)
    ∧ (∀ st : InputState, st.history_index < st.history.length →
      (handle_down st).history_index = st.history_index + 1
      ∧ (st.history_index + 1 < st.history.length →
          (handle_down st).input = st.history.getD (st.history_index + 1) [])
      ∧ (st.history_index + 1 = st.history.length → (handle_down st).input = [])
      ∧ (handle_down st).cursor_position = byteLen ((handle_down st).input))
    ∧ (∀ st : InputState, st.history.length ≤ st.history_index → handle_down st = st)
    ∧ ((handle_up (handle_up ⟨[], 0, 0, ["first".toList, "second".toList], 2⟩)).input
          = "first".toList
      ∧ (handle_up (handle_up ⟨[], 0, 0, ["first".toList, "second".toList], 2⟩)).history_index
          = 0
      ∧ (handle_down (handle_up (handle_up
            ⟨[], 0, 0, ["first".toList, "second".toList], 2⟩))).input = "second".toList
      ∧ (handle_down (handle_up (handle_up
            ⟨[], 0, 0, ["first".toList, "second".toList], 2⟩))).history_index = 1) := by
  refine ⟨?_, ?_, ?_, ?_, by decide⟩
  · intro st h
    unfold handle_up
    rw [if_pos h]
    exact ⟨rfl, rfl, rfl⟩
  · intro st h
    unfold handle_up
    rw [if_neg (by omega)]
  · intro st h
    unfold handle_down
    rw [if_pos h]
    dsimp only
    refine ⟨rfl, ?_, ?_, rfl⟩
    · intro h2
      rw [if_pos h2]
    · intro h2
      rw [if_neg (by omega)]
  · intro st h
    unfold handle_down
    rw [if_neg (by omega)]

/-- C9 (witness): the Up rule applied at a concrete browsing state. -/
theorem C9_witness :
    (handle_up ⟨[], 0, 0, [['a']], 1⟩).history_index = 0
    ∧ (handle_up ⟨[], 0, 0, [['a']], 1⟩).input = ['a'] := by
  have h := C9_history_navigation.1 ⟨[], 0, 0, [['a']], 1⟩ (by decide)
  exact ⟨h.1, h.2.1⟩

/-- C10 (code_bug evidence): the key handlers are not total.  The cursor is a
byte index advanced by one per character, so typing the two-byte character é
into an empty buffer leaves the cursor at byte 1 — inside é's encoding — and
the next insertion calls `String::insert` at a non-character-boundary, which
panics (modelled as `none`). -/
theorem C10_multibyte_cursor_panics :
    handle_char InputState.new 'é' = some ⟨['é'], 1, 0, [], 0⟩
    ∧ byteLen ['é'] = 2
    ∧ charPosOfByte ['é'] 1 = none
    ∧ (handle_char InputState.new 'é').bind (fun st => handle_char st 'x') = none := by
  decide

end RX
